import Mathlib

set_option maxRecDepth 100000

/-!
# Verification of the pdf-reader-tts processing pipeline

A shallow embedding of the pipeline logic of the `pdf-reader-tts` repository:
the two text segmentation algorithms (`chunkText` in `convex/embeddings.ts`,
`chunkTextForTTS` in `convex/tts.ts`), the stage handlers
(`convex/ocr.ts` `processDocument`, `convex/embeddings.ts`
`processDocumentEmbeddings`, `convex/tts.ts` `processDocumentTTS` and
`generateDocumentAudio`) and the playback-state mutation
(`convex/tts.ts` `updatePlaybackState`).

Texts are embedded as `List Char`; character offsets are `Nat` indices into
that list.  JavaScript string operations (`slice`, `trim`, `lastIndexOf`) are
translated below, and the one regular expression used by the speech chunker is
compiled by hand into the deterministic matcher it denotes.
-/

namespace PdfReaderTTS

/-! ## JavaScript string primitives -/

/-- The JavaScript `\s` / `String.prototype.trim` whitespace class. -/
def jsWhitespace (c : Char) : Bool :=
  c == ' ' || c == '\t' || c == '\n' || c == '\r' || c == '\x0b' || c == '\x0c' ||
  c.toNat == 0xa0 || c.toNat == 0x1680 ||
  (0x2000 ≤ c.toNat && c.toNat ≤ 0x200a) ||
  c.toNat == 0x2028 || c.toNat == 0x2029 || c.toNat == 0x202f ||
  c.toNat == 0x205f || c.toNat == 0x3000 || c.toNat == 0xfeff

/-- JavaScript `text.slice(a, b)` for `0 ≤ a ≤ b` (the only way it is called). -/
def slice (l : List Char) (a b : Nat) : List Char :=
  (l.drop a).take (b - a)

/-- JavaScript `s.trim()`: strip whitespace from both ends. -/
def trim (l : List Char) : List Char :=
  ((l.dropWhile jsWhitespace).reverse.dropWhile jsWhitespace).reverse

/-- JavaScript `s.lastIndexOf(pat)`: the largest index at which `pat` occurs
in `s`, or `-1` when it does not occur. -/
def lastIndexOf (s pat : List Char) : Int :=
  (List.range (s.length + 1)).foldl
    (fun best i => if pat.isPrefixOf (s.drop i) then max best (i : Int) else best)
    (-1)

/-! ## The indexing chunker (`convex/embeddings.ts`, `chunkText`) -/

def CHUNK_SIZE : Nat := 1000

def CHUNK_OVERLAP : Nat := 200

/-- The `sentenceEndings` array of `chunkText`. -/
def sentenceEndings : List (List Char) :=
  [['.', ' '], ['!', ' '], ['?', ' '], ['.', '\n'], ['!', '\n'], ['?', '\n']]

/-- The `bestBreak` scan of `chunkText`: fold over `sentenceEndings`,
replacing the current best by `idx + ending.length` whenever
`idx = searchText.lastIndexOf(ending)` exceeds it. -/
def bestBreak (searchText : List Char) : Int :=
  sentenceEndings.foldl
    (fun bb pat =>
      if lastIndexOf searchText pat > bb then
        lastIndexOf searchText pat + (pat.length : Int)
      else bb)
    (-1)

/-- The window-end computation of one `chunkText` iteration: `end = start +
CHUNK_SIZE`; if that is not past the end of the text, snap back to the
right-most sentence ending found in the final 100 characters of the window;
otherwise cut at the end of the text. -/
def chunkEnd (text : List Char) (start : Nat) : Nat :=
  let e0 := start + CHUNK_SIZE
  if e0 < text.length then
    let searchStart := max (e0 - 100) start
    let bb := bestBreak (slice text searchStart e0)
    if bb > 0 then searchStart + bb.toNat else e0
  else text.length

/-- The start-position update at the bottom of the `chunkText` loop:
`start = end - CHUNK_OVERLAP`, clamped to `0`, then
`if (start >= end - CHUNK_OVERLAP) start = end`. -/
def nextStart (e : Nat) : Nat :=
  let s1 : Int := (e : Int) - (CHUNK_OVERLAP : Int)
  let s2 : Int := if s1 < 0 then 0 else s1
  if s2 ≥ (e : Int) - (CHUNK_OVERLAP : Int) then e else s2.toNat

/-- The `while (start < text.length)` loop of `chunkText`, with the window
bounds of each emitted chunk kept alongside its text.  `fuel` bounds the
number of iterations; `chunkText` supplies enough fuel for the loop to run
to completion (each iteration strictly advances `start`). -/
def chunkTextLoop (text : List Char) : Nat → Nat → List (Nat × Nat × List Char)
  | 0, _ => []
  | fuel + 1, start =>
    if start < text.length then
      let e := chunkEnd text start
      let c := trim (slice text start e)
      let rest := chunkTextLoop text fuel (nextStart e)
      if c = [] then rest else (start, e, c) :: rest
    else []

/-- `chunkText` with the window bounds of each chunk. -/
def chunkTextBounds (text : List Char) : List (Nat × Nat × List Char) :=
  chunkTextLoop text (text.length + 1) 0

/-- `chunkText` from `convex/embeddings.ts`: the list of emitted chunks. -/
def chunkText (text : List Char) : List (List Char) :=
  (chunkTextBounds text).map (fun t => t.2.2)

/-! ## The speech chunker (`convex/tts.ts`, `chunkTextForTTS`)

`chunkTextForTTS` first splits the text into sentences with the global regex

  `/[^.!?]*[.!?]+(?:\s|$)|[^.!?]+$/g`

run in an `exec` loop.  We compile that regex by hand.  A first-alternative
match at position `p` reads the maximal run of non-terminator characters, then
a non-empty maximal run of terminator characters (`.`, `!`, `?`), and succeeds
when that run is followed by a whitespace character (consumed) or the end of
the string.  Backtracking to a shorter run never helps: shortening the
non-terminator run puts a non-terminator where `[.!?]+` must match, and
shortening the terminator run puts a terminator (neither whitespace nor the
string end) after it.  The second alternative matches at `p` exactly when the
maximal non-terminator run starting at `p` is non-empty and reaches the end of
the string.  The `exec` loop finds the left-most match at or after the end of
the previous match; no match is empty, so `lastIndex` strictly increases. -/

/-- The terminator class `[.!?]` of the sentence regex. -/
def isTerminator (c : Char) : Bool :=
  c == '.' || c == '!' || c == '?'

/-- End of the maximal run of characters satisfying `f` that starts at
position `p` (at most `text.length`): `p` plus the length of the longest
prefix of the remaining text satisfying `f`. -/
def runEnd (text : List Char) (f : Char → Bool) (p : Nat) : Nat :=
  p + ((text.drop p).takeWhile f).length

/-- End of the maximal `[^.!?]*` run starting at `p`. -/
def nonTermEnd (text : List Char) (p : Nat) : Nat :=
  runEnd text (fun c => !isTerminator c) p

/-- End of the maximal `[.!?]*` run starting at `p`. -/
def termEnd (text : List Char) (p : Nat) : Nat :=
  runEnd text isTerminator p

/-- The end of the regex match starting exactly at position `p`, if any. -/
def matchAt (text : List Char) (p : Nat) : Option Nat :=
  if ha : nonTermEnd text p < text.length then
    -- the text continues with a terminator run: try the first alternative
    if hb : termEnd text (nonTermEnd text p) < text.length then
      if jsWhitespace text[termEnd text (nonTermEnd text p)] then
        some (termEnd text (nonTermEnd text p) + 1)
      else none
    else some (termEnd text (nonTermEnd text p))
  else
    -- no terminator follows: only `[^.!?]+$` can match, and only when the
    -- non-terminator run is non-empty and reaches the end of the string
    if p < nonTermEnd text p then some (nonTermEnd text p) else none

/-- The scan of the regex engine from position `p`, with explicit fuel. -/
def findMatchAux (text : List Char) : Nat → Nat → Option (Nat × Nat)
  | 0, _ => none
  | fuel + 1, p =>
    if p < text.length then
      match matchAt text p with
      | some e => some (p, e)
      | none => findMatchAux text fuel (p + 1)
    else none

/-- Left-most regex match starting at or after position `p`. -/
def findMatch (text : List Char) (p : Nat) : Option (Nat × Nat) :=
  findMatchAux text (text.length + 1 - p) p

/-- The `exec` loop collecting `(match.index, match.index + match.length)` for
each successive match.  Each match ends strictly after its start, so
`text.length + 1` units of fuel run the loop to completion. -/
def sentencesLoop (text : List Char) : Nat → Nat → List (Nat × Nat)
  | 0, _ => []
  | fuel + 1, p =>
    match findMatch text p with
    | some (s, e) => (s, e) :: sentencesLoop text fuel e
    | none => []

/-- The `sentences` array built by `chunkTextForTTS` (start/end offsets). -/
def sentences (text : List Char) : List (Nat × Nat) :=
  sentencesLoop text (text.length + 1) 0

def TARGET_SIZE : Nat := 400

def MIN_SIZE : Nat := 200

def MAX_SIZE : Nat := 600

/-- The `TTSChunk` record of `convex/tts.ts`. -/
structure TTSChunk where
  text : List Char
  startCharIndex : Nat
  endCharIndex : Nat
  deriving DecidableEq, Repr

/-- The `for (const sentence of sentences)` loop of `chunkTextForTTS`, with
accumulator state `(chunks, currentChunk, currentStart, position)`, followed by
the final flush of the remaining `currentChunk`. -/
def ttsFold (text : List Char) :
    List (Nat × Nat) → List TTSChunk → List Char → Nat → Nat → List TTSChunk
  | [], chunks, currentChunk, currentStart, _position =>
    -- don't forget the last chunk
    if trim currentChunk = [] then chunks
    else chunks ++ [⟨trim currentChunk, currentStart, text.length⟩]
  | (s, e) :: rest, chunks, currentChunk, currentStart, position =>
    let t := trim (slice text s e)
    if t = [] then ttsFold text rest chunks currentChunk currentStart position
    else
      -- if adding this sentence exceeds max and we have enough content,
      -- finalize the running chunk
      let chunks1 := if MAX_SIZE < currentChunk.length + t.length ∧
          MIN_SIZE ≤ currentChunk.length then
        chunks ++ [⟨trim currentChunk, currentStart, position⟩]
      else chunks
      let cur1 := if MAX_SIZE < currentChunk.length + t.length ∧
          MIN_SIZE ≤ currentChunk.length then ([] : List Char) else currentChunk
      let curStart1 := if MAX_SIZE < currentChunk.length + t.length ∧
          MIN_SIZE ≤ currentChunk.length then s else currentStart
      -- a single over-long sentence becomes its own chunk when the running
      -- chunk is empty
      if MAX_SIZE < t.length ∧ cur1 = [] then
        ttsFold text rest (chunks1 ++ [⟨t, s, e⟩]) [] e e
      else
        let cur2 := if cur1 = [] then t else cur1 ++ ' ' :: t
        -- target size reached: finalize
        if TARGET_SIZE ≤ cur2.length then
          ttsFold text rest (chunks1 ++ [⟨trim cur2, curStart1, e⟩]) [] e e
        else ttsFold text rest chunks1 cur2 curStart1 e

/-- `chunkTextForTTS` from `convex/tts.ts`. -/
def chunkTextForTTS (text : List Char) : List TTSChunk :=
  ttsFold text (sentences text) [] [] 0 0

/-! ## The document record (`convex/schema.ts`)

Only the fields the pipeline handlers read or write are modelled.  The
`status`/`error` pair is the Extraction stage, `embeddingStatus`/
`embeddingError`/`chunkCount` the Indexing stage, `ttsStatus`/`ttsError` the
Speech stage.  Optional schema fields are `Option`s; a Convex `db.patch`
leaves every field that is not supplied unchanged. -/

inductive DocStatus
  | uploading
  | processing
  | ready
  | error
  deriving DecidableEq, Repr

inductive StageStatus
  | pending
  | processing
  | ready
  | error
  deriving DecidableEq, Repr

structure Document where
  status : DocStatus
  extractedText : Option (List Char)
  error : Option String
  embeddingStatus : Option StageStatus
  embeddingError : Option String
  chunkCount : Option Nat
  ttsStatus : Option StageStatus
  ttsError : Option String
  deriving DecidableEq, Repr

/-- The actions the handlers hand to `ctx.scheduler.runAfter`.  The source
only ever schedules `internal.embeddings.processDocumentEmbeddings` after
extraction (`convex/ocr.ts`); the TTS constructor exists so that the absence
of a scheduled speech run is expressible. -/
inductive ScheduledJob
  | processEmbeddingsJob
  | processTTSJob
  deriving DecidableEq, Repr

/-! ## The extraction handler (`convex/ocr.ts`, `processDocument`)

External interactions inside the `try` block (storage URL lookup, the
`MODAL_OCR_ENDPOINT` environment variable, the fetch, the `result.error`
check) are summarised by an oracle: `Except.error msg` is any throw before
the `result.text` check (the catch stores `msg`), `Except.ok t?` is a
successful response whose `text` field is `t?` (`none` when absent).  A
missing or empty (falsy) `text` throws `"OCR endpoint returned no text"`.
The handler returns the final document together with the scheduled jobs. -/

def processDocument (doc? : Option Document)
    (fetchResult : Except String (Option (List Char))) :
    Option Document × List ScheduledJob :=
  match doc? with
  | none => (none, [])  -- "Document not found": log and return
  | some doc =>
    match fetchResult with
    | .error msg => (some { doc with status := .error, error := some msg }, [])
    | .ok t? =>
      match t? with
      | none =>
        (some { doc with status := .error,
                         error := some "OCR endpoint returned no text" }, [])
      | some t =>
        if t = [] then
          (some { doc with status := .error,
                           error := some "OCR endpoint returned no text" }, [])
        else
          -- store extracted text, mark extraction ready, then mark the
          -- indexing stage processing and schedule the embeddings action
          (some { doc with status := .ready, extractedText := some t,
                           embeddingStatus := some .processing },
           [ScheduledJob.processEmbeddingsJob])

/-! ## The indexing handler (`convex/embeddings.ts`, `processDocumentEmbeddings`)

The single external call is `rag.add` (the embedding indexer); its outcome is
an oracle (`Except.error msg` = the call threw `msg`).  The result records the
final document and how many `rag.add` calls were made.  Note the handler has
no idempotency guard: it never reads `embeddingStatus` before running. -/

def processDocumentEmbeddings (doc? : Option Document) (docId : String)
    (ragOutcome : Except String Unit) : Option Document × Nat :=
  match doc? with
  | none => (none, 0)  -- throw caught; the error patch targets a missing row
  | some doc =>
    match doc.extractedText with
    | none =>
      (some { doc with embeddingStatus := some .error,
                       embeddingError :=
                         some ("Document has no extracted text: " ++ docId) }, 0)
    | some text =>
      if text = [] then
        (some { doc with embeddingStatus := some .error,
                         embeddingError :=
                           some ("Document has no extracted text: " ++ docId) }, 0)
      else
        let chunks := chunkText text
        if chunks = [] then
          (some { doc with embeddingStatus := some .error,
                           embeddingError :=
                             some "No chunks created from document text" }, 0)
        else
          match ragOutcome with
          | .ok _ =>
            (some { doc with embeddingStatus := some .ready,
                             chunkCount := some chunks.length }, 1)
          | .error msg =>
            (some { doc with embeddingStatus := some .error,
                             embeddingError := some msg }, 1)

/-! ## The speech handlers (`convex/tts.ts`)

Per-chunk synthesis (`generateSingleChunk`: the TTS fetch plus the
`saveAudioChunk` insert) is summarised by an oracle `outcome : Nat → Bool`
telling whether the attempt for a given chunk index succeeds.  The text
chunking the handlers perform — `chunkTextForTTS (cleanOCRText
document.extractedText)` — is passed in as the `chunks` argument, so the
theorems below quantify over every possible chunk list.  `existingCount` is
the number of rows `listAudioChunksInternal` returns. -/

structure TtsRunResult where
  doc : Option Document
  saved : List (Nat × TTSChunk)
  calls : Nat
  playbackInit : Bool
  deriving DecidableEq, Repr

/-- The sequential per-chunk loop of `processDocumentTTS` (lines 309-332):
returns `successCount` and the saved `audioChunks` rows (index and chunk).
A failed attempt is caught and the loop continues. -/
def ttsJobLoop : List TTSChunk → Nat → (Nat → Bool) → Nat × List (Nat × TTSChunk)
  | [], _, _ => (0, [])
  | c :: rest, i, outcome =>
    let r := ttsJobLoop rest (i + 1) outcome
    if outcome i then (r.1 + 1, (i, c) :: r.2) else (r.1, r.2)

/-- `processDocumentTTS` from `convex/tts.ts` (the internal action). -/
def processDocumentTTS (doc? : Option Document) (existingCount : Nat)
    (chunks : List TTSChunk) (outcome : Nat → Bool) : TtsRunResult :=
  match doc? with
  | none => ⟨none, [], 0, false⟩
  | some doc =>
    match doc.extractedText with
    | none => ⟨some doc, [], 0, false⟩  -- no extracted text: log and return
    | some t =>
      if t = [] then ⟨some doc, [], 0, false⟩  -- empty string is falsy
      else if doc.ttsStatus = some .processing ∨ doc.ttsStatus = some .ready then
        -- idempotency guard: TTS already processing or complete
        ⟨some doc, [], 0, false⟩
      else if 0 < existingCount then
        -- audio already exists: short-circuit to ready
        ⟨some { doc with ttsStatus := some .ready }, [], 0, false⟩
      else
        -- mark processing, init playback state, run every chunk job, then
        -- set the final status from `successCount`
        let r := ttsJobLoop chunks 0 outcome
        if 0 < r.1 then
          ⟨some { doc with ttsStatus := some .ready }, r.2, chunks.length, true⟩
        else
          ⟨some { doc with ttsStatus := some .error,
                           ttsError := some "All chunks failed to generate" },
           r.2, chunks.length, true⟩

structure GenRunResult where
  doc : Option Document
  saved : List (Nat × TTSChunk)
  calls : Nat
  /-- `some (chunksGenerated, skipped)` when the action returns; `none` when
  it propagates an exception to its caller. -/
  ret : Option (Nat × Bool)
  deriving DecidableEq, Repr

/-- The sequential per-chunk loop of `generateDocumentAudio` (lines 412-427):
unlike `processDocumentTTS` it has no `try`/`catch`, so the first failing
chunk aborts the loop.  Returns the saved rows, the number of attempts made,
and whether every chunk succeeded. -/
def genLoop : List TTSChunk → Nat → (Nat → Bool) → List (Nat × TTSChunk) × Nat × Bool
  | [], _, _ => ([], 0, true)
  | c :: rest, i, outcome =>
    if outcome i then
      let r := genLoop rest (i + 1) outcome
      ((i, c) :: r.1, r.2.1 + 1, r.2.2)
    else ([], 1, false)

/-- `generateDocumentAudio` from `convex/tts.ts` (the public action). -/
def generateDocumentAudio (doc? : Option Document) (existingCount : Nat)
    (chunks : List TTSChunk) (outcome : Nat → Bool) : GenRunResult :=
  match doc? with
  | none => ⟨none, [], 0, none⟩  -- throw "Document not found"
  | some doc =>
    match doc.extractedText with
    | none => ⟨some doc, [], 0, none⟩  -- throw "Document has no extracted text"
    | some t =>
      if t = [] then ⟨some doc, [], 0, none⟩
      else if doc.ttsStatus = some .processing then
        ⟨some doc, [], 0, some (0, true)⟩  -- already processing: skip
      else if 0 < existingCount then
        ⟨some doc, [], 0, some (existingCount, true)⟩  -- audio exists: skip
      else
        -- mark processing, init playback state, then run the unguarded loop
        let r := genLoop chunks 0 outcome
        if r.2.2 then
          ⟨some { doc with ttsStatus := some .ready }, r.1, r.2.1,
           some (chunks.length, false)⟩
        else
          -- the chunk action threw: the exception propagates and the
          -- document is left marked `processing` with no error recorded
          ⟨some { doc with ttsStatus := some .processing }, r.1, r.2.1, none⟩

/-! ## Playback state (`convex/tts.ts`, `updatePlaybackState`) -/

structure PlaybackState where
  currentChunkIndex : Nat
  isPlaying : Bool
  updatedAt : Nat
  deriving DecidableEq, Repr

/-- `updatePlaybackState` from `convex/tts.ts`: patch only the supplied
fields of an existing row, or insert a new row with defaults
`currentChunkIndex = 0`, `isPlaying = false` for omitted fields. -/
def updatePlaybackState (existing : Option PlaybackState)
    (currentChunkIndex? : Option Nat) (isPlaying? : Option Bool)
    (now : Nat) : PlaybackState :=
  match existing with
  | some st =>
    { currentChunkIndex := currentChunkIndex?.getD st.currentChunkIndex,
      isPlaying := isPlaying?.getD st.isPlaying,
      updatedAt := now }
  | none =>
    { currentChunkIndex := currentChunkIndex?.getD 0,
      isPlaying := isPlaying?.getD false,
      updatedAt := now }

/-! ## Concrete inputs used by the claim theorems -/

/-- 1100 copies of `a`: a punctuation-free text longer than `CHUNK_SIZE`. -/
def exNoOverlap : List Char := List.replicate 1100 'a'

/-- `"a"*299 ++ ". " ++ ".." ++ "b"*400 ++ ". "` (705 characters).  The inner
`".."` is followed by a non-whitespace character, so the sentence regex skips
it, leaving the offset range `[301, 303)` uncovered by any chunk. -/
def exGap : List Char :=
  List.replicate 299 'a' ++ ['.', ' ', '.', '.'] ++ List.replicate 400 'b' ++ ['.', ' ']

/-- `"a"*149 ++ ". " ++ "b"*499 ++ ". " ++ "c"*100 ++ "."`: a 500-character
sentence follows a 150-character running chunk, which is below `MIN_SIZE`, so
the running chunk is not flushed and grows to 651 characters. -/
def exLong : List Char :=
  List.replicate 149 'a' ++ ['.', ' '] ++ List.replicate 499 'b' ++ ['.', ' '] ++
    List.replicate 100 'c' ++ ['.']

/-- A document that has passed extraction, with indexing and speech pending. -/
def docPending : Document :=
  { status := .ready, extractedText := some ['x'], error := none,
    embeddingStatus := some .pending, embeddingError := none, chunkCount := none,
    ttsStatus := some .pending, ttsError := none }

/-- A document whose indexing stage has already completed. -/
def docIndexed : Document :=
  { status := .ready, extractedText := some ['x'], error := none,
    embeddingStatus := some .ready, embeddingError := none, chunkCount := some 1,
    ttsStatus := some .pending, ttsError := none }

/-- A one-character speech chunk used to exercise the job loops. -/
def chunkA : TTSChunk := ⟨['x'], 0, 1⟩

/-! ## Specification predicates -/

/-- Well-formedness of a sentence list relative to a lower bound `p`:
successive matches are disjoint, in order, non-empty and inside the text. -/
def SentChain (len : Nat) : Nat → List (Nat × Nat) → Prop
  | _, [] => True
  | p, (s, e) :: rest => p ≤ s ∧ s < e ∧ e ≤ len ∧ SentChain len e rest

/-- The chunk list is ordered by offset: each chunk's range is well-formed and
ends inside the text, and each chunk starts at or after the previous chunk's
end (non-overlapping, monotonically increasing). -/
def ChunksOrd (len : Nat) (cs : List TTSChunk) : Prop :=
  List.Chain' (fun a b => a.endCharIndex ≤ b.startCharIndex) cs ∧
  ∀ c ∈ cs, c.startCharIndex ≤ c.endCharIndex ∧ c.endCharIndex ≤ len

/-- End offset of the last chunk (0 for the empty list). -/
def lastEnd (cs : List TTSChunk) : Nat :=
  (cs.getLast?).elim 0 TTSChunk.endCharIndex

/-- The largest trimmed-sentence length the speech chunker encounters. -/
def maxSentLen (text : List Char) : Nat :=
  ((sentences text).map (fun se => (trim (slice text se.1 se.2)).length)).foldr max 0

/-! ## Lemmas about `slice` and `trim` -/

lemma slice_subset (l : List Char) (a b : Nat) : ∀ c ∈ slice l a b, c ∈ l := by
  intro c hc
  exact ((l.drop a).take_sublist (b - a)).subset hc |> (l.drop_sublist a).subset

lemma slice_length (l : List Char) (a b : Nat) :
    (slice l a b).length = min (b - a) (l.length - a) := by
  simp [slice]

lemma getElem_mem_slice (l : List Char) (a b p : Nat) (h1 : a ≤ p) (h2 : p < b)
    (h3 : p < l.length) : l[p] ∈ slice l a b := by
  have hlen : p - a < (slice l a b).length := by
    rw [slice_length]; omega
  have : (slice l a b)[p - a] = l[p] := by
    simp only [slice]
    rw [List.getElem_take, List.getElem_drop]
    congr 1
    omega
  rw [← this]
  exact List.getElem_mem hlen

lemma forall_mem_dropWhile_iff {p : Char → Bool} (l : List Char) :
    (∀ c ∈ l.dropWhile p, p c) ↔ (∀ c ∈ l, p c) := by
  induction l with
  | nil => simp
  | cons a l ih =>
    by_cases h : p a
    · simpa [List.dropWhile_cons, h] using ih
    · simp [List.dropWhile_cons, h]

lemma trim_eq_rdropWhile (l : List Char) :
    trim l = (l.dropWhile jsWhitespace).rdropWhile jsWhitespace := rfl

lemma trim_eq_nil_iff (l : List Char) : trim l = [] ↔ ∀ c ∈ l, jsWhitespace c := by
  rw [trim_eq_rdropWhile, List.rdropWhile_eq_nil_iff]
  exact forall_mem_dropWhile_iff l

lemma trim_head? (l : List Char) (c : Char) (h : (trim l).head? = some c) :
    jsWhitespace c = false := by
  obtain ⟨t, ht⟩ := List.rdropWhile_prefix jsWhitespace (l.dropWhile jsWhitespace)
  rw [← trim_eq_rdropWhile] at ht
  have hne : trim l ≠ [] := by
    intro hnil
    rw [hnil] at h
    simp at h
  have hd : (l.dropWhile jsWhitespace).head? = some c := by
    rw [← ht, List.head?_append_of_ne_nil _ hne, h]
  have hne2 : l.dropWhile jsWhitespace ≠ [] := by
    intro hnil
    rw [hnil] at hd
    simp at hd
  have hnot := List.head_dropWhile_not jsWhitespace l hne2
  rw [List.head?_eq_head hne2] at hd
  cases hd
  exact hnot

lemma trim_getLast? (l : List Char) (c : Char) (h : (trim l).getLast? = some c) :
    jsWhitespace c = false := by
  have hne : trim l ≠ [] := by
    intro hnil
    rw [hnil] at h
    simp at h
  have hnot := List.rdropWhile_last_not jsWhitespace (l.dropWhile jsWhitespace)
    (by rw [← trim_eq_rdropWhile]; exact hne)
  rw [trim_eq_rdropWhile] at h hne
  rw [List.getLast?_eq_getLast_of_ne_nil hne] at h
  cases h
  simpa using hnot

lemma trim_noop (l : List Char)
    (h1 : ∀ c, l.head? = some c → jsWhitespace c = false)
    (h2 : ∀ c, l.getLast? = some c → jsWhitespace c = false) : trim l = l := by
  rcases l with _ | ⟨a, l'⟩
  · rfl
  · have ha : jsWhitespace a = false := h1 a rfl
    have hdrop : (a :: l').dropWhile jsWhitespace = a :: l' := by
      rw [List.dropWhile_cons, ha]
      simp
    rw [trim_eq_rdropWhile, hdrop, List.rdropWhile_eq_self_iff]
    intro hl
    have := h2 _ (List.getLast?_eq_getLast_of_ne_nil hl)
    simp [this]

lemma trim_idem (l : List Char) : trim (trim l) = trim l :=
  trim_noop (trim l) (trim_head? l) (trim_getLast? l)

lemma trim_append (a b : List Char) (ha : trim a = a) (hb : trim b = b)
    (ha' : a ≠ []) (hb' : b ≠ []) : trim (a ++ ' ' :: b) = a ++ ' ' :: b := by
  apply trim_noop
  · intro c hc
    rw [List.head?_append_of_ne_nil _ ha'] at hc
    refine trim_head? a c ?_
    rw [ha]; exact hc
  · intro c hc
    have : a ++ ' ' :: b = (a ++ [' ']) ++ b := by simp
    rw [this, List.getLast?_append_of_ne_nil _ hb'] at hc
    refine trim_getLast? b c ?_
    rw [hb]; exact hc

lemma trim_ne_nil_of_mem (l : List Char) (c : Char) (hc : c ∈ l)
    (hw : jsWhitespace c = false) : trim l ≠ [] := by
  intro h
  rw [trim_eq_nil_iff] at h
  rw [h c hc] at hw
  exact Bool.noConfusion hw

/-! ## Lemmas about the indexing chunker -/

lemma lastIndexOf_bound (s pat : List Char) :
    lastIndexOf s pat = -1 ∨
      (0 ≤ lastIndexOf s pat ∧ lastIndexOf s pat + pat.length ≤ s.length) := by
  have key : ∀ (l : List Nat) (init : Int),
      (init = -1 ∨ (0 ≤ init ∧ init + pat.length ≤ s.length)) →
      (∀ i ∈ l, pat.isPrefixOf (s.drop i) = true → (i : Int) + pat.length ≤ s.length) →
      (l.foldl (fun best i =>
          if pat.isPrefixOf (s.drop i) then max best (i : Int) else best) init = -1 ∨
        (0 ≤ l.foldl (fun best i =>
            if pat.isPrefixOf (s.drop i) then max best (i : Int) else best) init ∧
          l.foldl (fun best i =>
              if pat.isPrefixOf (s.drop i) then max best (i : Int) else best) init +
            pat.length ≤ s.length)) := by
    intro l
    induction l with
    | nil => intro init h _; exact h
    | cons a l ih =>
      intro init h hl
      simp only [List.foldl_cons]
      refine ih _ ?_ (fun i hi => hl i (List.mem_cons_of_mem a hi))
      by_cases hp : pat.isPrefixOf (s.drop a)
      · have hba := hl a (List.mem_cons_self a l) hp
        right
        rw [if_pos hp, max_def]
        rcases h with h | ⟨h1, h2⟩ <;> split <;> omega
      · rw [if_neg hp]
        exact h
  refine key _ _ (Or.inl rfl) ?_
  intro i hi hp
  rw [List.isPrefixOf_iff_prefix] at hp
  have h1 := hp.length_le
  rw [List.length_drop] at h1
  rw [List.mem_range] at hi
  omega

lemma bestBreak_bound (st : List Char) :
    -1 ≤ bestBreak st ∧ bestBreak st ≤ (st.length : Int) := by
  have key : ∀ (pats : List (List Char)) (init : Int),
      (∀ pat ∈ pats, pat.length = 2) → -1 ≤ init → init ≤ (st.length : Int) →
      (-1 ≤ pats.foldl (fun bb pat =>
          if lastIndexOf st pat > bb then lastIndexOf st pat + (pat.length : Int)
          else bb) init ∧
        pats.foldl (fun bb pat =>
            if lastIndexOf st pat > bb then lastIndexOf st pat + (pat.length : Int)
            else bb) init ≤ (st.length : Int)) := by
    intro pats
    induction pats with
    | nil => intro init _ h1 h2; exact ⟨h1, h2⟩
    | cons a pats ih =>
      intro init hlen h1 h2
      simp only [List.foldl_cons]
      have ha : a.length = 2 := hlen a (List.mem_cons_self a pats)
      refine ih _ (fun p hp => hlen p (List.mem_cons_of_mem a hp)) ?_ ?_
      · by_cases h : lastIndexOf st a > init
        · rw [if_pos h]
          rcases lastIndexOf_bound st a with hb | ⟨hb1, _⟩ <;> omega
        · rw [if_neg h]
          exact h1
      · by_cases h : lastIndexOf st a > init
        · rw [if_pos h]
          rcases lastIndexOf_bound st a with hb | ⟨_, hb2⟩
          · omega
          · rw [ha] at hb2
            omega
        · rw [if_neg h]
          exact h2
  exact key sentenceEndings (-1) (by decide) (by omega) (by omega)

lemma chunkEnd_bounds (text : List Char) (start : Nat) (h : start < text.length) :
    start < chunkEnd text start ∧ chunkEnd text start ≤ text.length := by
  unfold chunkEnd
  by_cases h1 : start + CHUNK_SIZE < text.length
  · simp only [h1, if_pos]
    set st := slice text (max (start + CHUNK_SIZE - 100) start) (start + CHUNK_SIZE) with hst
    by_cases h2 : bestBreak st > 0
    · simp only [h2, if_pos]
      have hb := bestBreak_bound st
      have hlen : st.length = start + CHUNK_SIZE - max (start + CHUNK_SIZE - 100) start := by
        rw [hst, slice_length]
        have : CHUNK_SIZE = 1000 := rfl
        omega
      constructor
      · have : 1 ≤ (bestBreak st).toNat := by omega
        have : start ≤ max (start + CHUNK_SIZE - 100) start := le_max_right _ _
        omega
      · have h3 : (bestBreak st).toNat ≤ st.length := by omega
        omega
    · simp only [h2, if_neg, not_false_iff]
      have : CHUNK_SIZE = 1000 := rfl
      omega
  · simp only [h1, if_neg, not_false_iff]
    omega

lemma nextStart_eq (e : Nat) : nextStart e = e := by
  simp only [nextStart]
  split_ifs <;> omega

lemma chunkTextLoop_all_ws (text : List Char) (hws : ∀ c ∈ text, jsWhitespace c) :
    ∀ fuel start, chunkTextLoop text fuel start = [] := by
  intro fuel
  induction fuel with
  | zero => intro start; rfl
  | succ n ih =>
    intro start
    unfold chunkTextLoop
    by_cases h : start < text.length
    · have hc : trim (slice text start (chunkEnd text start)) = [] :=
        (trim_eq_nil_iff _).mpr (fun c hc => hws c (slice_subset _ _ _ c hc))
      simp [h, hc, ih]
    · simp [h]

lemma chunkTextLoop_ne_nil (text : List Char) :
    ∀ fuel start p, text.length - start ≤ fuel → start ≤ p →
      (hp : p < text.length) → jsWhitespace text[p] = false →
      chunkTextLoop text fuel start ≠ [] := by
  intro fuel
  induction fuel with
  | zero => intro start p hfuel hsp hp _; omega
  | succ n ih =>
    intro start p hfuel hsp hp hws
    have hstart : start < text.length := lt_of_le_of_lt hsp hp
    obtain ⟨he1, he2⟩ := chunkEnd_bounds text start hstart
    unfold chunkTextLoop
    simp only [hstart, if_pos]
    by_cases hpe : p < chunkEnd text start
    · have hmem : text[p] ∈ slice text start (chunkEnd text start) :=
        getElem_mem_slice text start (chunkEnd text start) p hsp hpe hp
      have hc : trim (slice text start (chunkEnd text start)) ≠ [] :=
        trim_ne_nil_of_mem _ _ hmem hws
      simp only [hc, if_neg, not_false_iff]
      exact List.cons_ne_nil _ _
    · have hrest : chunkTextLoop text n (nextStart (chunkEnd text start)) ≠ [] := by
        rw [nextStart_eq]
        exact ih (chunkEnd text start) p (by omega) (by omega) hp hws
      by_cases hc : trim (slice text start (chunkEnd text start)) = []
      · simpa [hc] using hrest
      · simp only [hc, if_neg, not_false_iff]
        exact List.cons_ne_nil _ _

lemma chunkText_eq_nil_iff (text : List Char) :
    chunkText text = [] ↔ ∀ c ∈ text, jsWhitespace c := by
  constructor
  · intro h
    by_contra hcon
    push_neg at hcon
    obtain ⟨c, hc, hw⟩ := hcon
    obtain ⟨p, hp, hpc⟩ := List.mem_iff_getElem.mp hc
    have : chunkTextLoop text (text.length + 1) 0 ≠ [] := by
      refine chunkTextLoop_ne_nil text (text.length + 1) 0 p (by omega) (by omega) hp ?_
      rw [hpc]
      simpa using hw
    rw [chunkText, chunkTextBounds] at h
    exact this (List.map_eq_nil_iff.mp h)
  · intro h
    rw [chunkText, chunkTextBounds, chunkTextLoop_all_ws text h]
    rfl

/-! ## Lemmas about the sentence tokenizer -/

/-- The defining recurrence of `runEnd`. -/
lemma runEnd_unfold (text : List Char) (f : Char → Bool) (p : Nat) :
    runEnd text f p =
      if h : p < text.length then
        (if f text[p] then runEnd text f (p + 1) else p)
      else p := by
  by_cases hp : p < text.length
  · rw [dif_pos hp, runEnd, runEnd, List.drop_eq_getElem_cons hp, List.takeWhile_cons]
    by_cases hf : f text[p]
    · rw [if_pos hf, if_pos hf, List.length_cons]
      omega
    · rw [if_neg hf, if_neg hf, List.length_nil]
      omega
  · rw [dif_neg hp, runEnd, List.drop_eq_nil_of_le (by omega), List.takeWhile_nil,
      List.length_nil]
    omega

lemma runEnd_ge (text : List Char) (f : Char → Bool) (p : Nat) : p ≤ runEnd text f p :=
  Nat.le_add_right p _

lemma runEnd_le (text : List Char) (f : Char → Bool) (p : Nat) (h : p ≤ text.length) :
    runEnd text f p ≤ text.length := by
  have h1 : ((text.drop p).takeWhile f).length ≤ (text.drop p).length :=
    (List.takeWhile_prefix f).length_le
  rw [List.length_drop] at h1
  rw [runEnd]
  omega

lemma runEnd_succ_of_pos (text : List Char) (f : Char → Bool) (p : Nat)
    (hp : p < text.length) (hf : f text[p] = true) : runEnd text f p = runEnd text f (p + 1) := by
  rw [runEnd_unfold]
  simp [hp, hf]

lemma runEnd_succ_ge (text : List Char) (f : Char → Bool) (p : Nat)
    (hp : p < text.length) (hf : f text[p] = true) : p + 1 ≤ runEnd text f p := by
  rw [runEnd_succ_of_pos text f p hp hf]
  exact runEnd_ge text f (p + 1)

lemma runEnd_eq_self (text : List Char) (f : Char → Bool) (p : Nat)
    (h : ∀ hp2 : p < text.length, f text[p] = false) : runEnd text f p = p := by
  rw [runEnd_unfold]
  by_cases hp : p < text.length
  · simp [hp, h hp]
  · simp [hp]

lemma runEnd_stop (text : List Char) (f : Char → Bool) (p q : Nat)
    (hq : runEnd text f p = q) (h : q < text.length) : f text[q] = false := by
  by_cases hp : p < text.length
  · by_cases hf : f text[p]
    · rw [runEnd_succ_of_pos text f p hp hf] at hq
      exact runEnd_stop text f (p + 1) q hq h
    · have : runEnd text f p = p := runEnd_eq_self text f p (fun _ => by simpa using hf)
      rw [this] at hq
      subst hq
      simpa using hf
  · have : runEnd text f p = p := runEnd_eq_self text f p (fun hc => absurd hc hp)
    rw [this] at hq
    omega
termination_by text.length - p

lemma runEnd_mem (text : List Char) (f : Char → Bool) (p : Nat) :
    ∀ i, p ≤ i → i < runEnd text f p → (hi : i < text.length) → f text[i] = true := by
  intro i h1 h2 hi
  by_cases hp : p < text.length
  · by_cases hf : f text[p]
    · rcases Nat.eq_or_lt_of_le h1 with rfl | hlt
      · exact hf
      · rw [runEnd_succ_of_pos text f p hp hf] at h2
        exact runEnd_mem text f (p + 1) i hlt h2 hi
    · have : runEnd text f p = p := runEnd_eq_self text f p (fun _ => by simpa using hf)
      omega
  · have : runEnd text f p = p := runEnd_eq_self text f p (fun hc => absurd hc hp)
    omega
termination_by text.length - p

lemma runEnd_of_all (text : List Char) (f : Char → Bool) (p : Nat) (hp : p ≤ text.length)
    (h : ∀ i, p ≤ i → (hi : i < text.length) → f text[i] = true) :
    runEnd text f p = text.length := by
  rw [runEnd_unfold]
  by_cases hlt : p < text.length
  · rw [dif_pos hlt, if_pos (h p (le_refl p) hlt)]
    exact runEnd_of_all text f (p + 1) (by omega)
      (fun i hi₁ hi₂ => h i (by omega) hi₂)
  · rw [dif_neg hlt]
    omega
termination_by text.length - p

/-- A whitespace character is not a terminator. -/
lemma ws_not_term (c : Char) (h : jsWhitespace c = true) : isTerminator c = false := by
  by_contra hcon
  rw [Bool.not_eq_false] at hcon
  simp only [isTerminator, Bool.or_eq_true, beq_iff_eq] at hcon
  rcases hcon with (rfl | rfl) | rfl <;> simp [jsWhitespace] at h

/-- A terminator character is not whitespace. -/
lemma term_not_ws (c : Char) (h : isTerminator c = true) : jsWhitespace c = false := by
  by_contra hcon
  rw [Bool.not_eq_false] at hcon
  rw [ws_not_term c hcon] at h
  exact Bool.noConfusion h

lemma matchAt_some_bounds (text : List Char) (p e : Nat)
    (h : matchAt text p = some e) : p < e ∧ e ≤ text.length := by
  have hple : p ≤ text.length := by
    by_contra hcon
    push_neg at hcon
    have ha : nonTermEnd text p = p :=
      runEnd_eq_self text _ p (fun hc => absurd hc (by omega))
    rw [matchAt, ha] at h
    rw [dif_neg (by omega)] at h
    rw [if_neg (lt_irrefl p)] at h
    exact Option.noConfusion h
  have hage : p ≤ nonTermEnd text p := runEnd_ge text _ p
  have hale : nonTermEnd text p ≤ text.length := runEnd_le text _ p hple
  rw [matchAt] at h
  by_cases ha : nonTermEnd text p < text.length
  · rw [dif_pos ha] at h
    have hbge : nonTermEnd text p + 1 ≤ termEnd text (nonTermEnd text p) := by
      refine runEnd_succ_ge text _ _ ha ?_
      have := runEnd_stop text (fun c => !isTerminator c) p (nonTermEnd text p) rfl ha
      simpa using this
    have hble : termEnd text (nonTermEnd text p) ≤ text.length :=
      runEnd_le text _ _ (by omega)
    by_cases hb : termEnd text (nonTermEnd text p) < text.length
    · rw [dif_pos hb] at h
      by_cases hw : jsWhitespace text[termEnd text (nonTermEnd text p)]
      · rw [if_pos hw] at h
        cases h
        omega
      · rw [if_neg hw] at h
        exact Option.noConfusion h
    · rw [dif_neg hb] at h
      cases h
      omega
  · rw [dif_neg ha] at h
    by_cases hlt : p < nonTermEnd text p
    · rw [if_pos hlt] at h
      cases h
      omega
    · rw [if_neg hlt] at h
      exact Option.noConfusion h

lemma matchAt_some_lt (text : List Char) (p e : Nat) (h : matchAt text p = some e) :
    p < text.length := by
  obtain ⟨h1, h2⟩ := matchAt_some_bounds text p e h
  omega

/-- Any non-whitespace character is at or after the start of some regex match
that contains a non-whitespace character before its end. -/
lemma matchAt_reach (text : List Char) :
    ∀ n q, text.length - q ≤ n → (hq : q < text.length) →
      jsWhitespace text[q] = false →
      ∃ p e, q ≤ p ∧ matchAt text p = some e ∧
        ∃ r, ∃ hr : r < text.length, p ≤ r ∧ r < e ∧ jsWhitespace text[r] = false := by
  intro n
  induction n with
  | zero => intro q h1 h2 _; omega
  | succ n ih =>
    intro q hfuel hq hws
    by_cases hterm : isTerminator text[q]
    · -- `q` holds a terminator: the non-terminator run at `q` is empty
      have ha0 : nonTermEnd text q = q :=
        runEnd_eq_self text _ q (fun _ => by simpa using hterm)
      have hbge : q + 1 ≤ termEnd text q := runEnd_succ_ge text _ q hq hterm
      have hble : termEnd text q ≤ text.length := runEnd_le text _ q (by omega)
      by_cases hb : termEnd text q < text.length
      · by_cases hw : jsWhitespace text[termEnd text q]
        · -- first alternative matches `[q, termEnd+1)`
          refine ⟨q, termEnd text q + 1, le_refl q, ?_, q, hq, le_refl q, by omega, hws⟩
          rw [matchAt, ha0, dif_pos (by omega), dif_pos hb, if_pos hw]
        · -- the run is followed by a non-whitespace non-terminator: recurse
          have := ih (termEnd text q) (by omega) hb (by simpa using hw)
          obtain ⟨p, e, hp, hm, hr⟩ := this
          exact ⟨p, e, by omega, hm, hr⟩
      · -- the terminator run reaches the end of the string
        have hbeq : termEnd text q = text.length := by omega
        refine ⟨q, termEnd text q, le_refl q, ?_, q, hq, le_refl q, by omega, hws⟩
        rw [matchAt, ha0, dif_pos (by omega), dif_neg hb]
    · -- `q` holds a non-terminator: the non-terminator run at `q` is non-empty
      have hage : q + 1 ≤ nonTermEnd text q :=
        runEnd_succ_ge text _ q hq (by simpa using hterm)
      have hale : nonTermEnd text q ≤ text.length := runEnd_le text _ q (by omega)
      by_cases ha : nonTermEnd text q < text.length
      · have hterm2 : isTerminator text[nonTermEnd text q] = true := by
          have := runEnd_stop text (fun c => !isTerminator c) q (nonTermEnd text q) rfl ha
          simpa using this
        have hbge : nonTermEnd text q + 1 ≤ termEnd text (nonTermEnd text q) :=
          runEnd_succ_ge text _ _ ha hterm2
        have hble : termEnd text (nonTermEnd text q) ≤ text.length :=
          runEnd_le text _ _ (by omega)
        by_cases hb : termEnd text (nonTermEnd text q) < text.length
        · by_cases hw : jsWhitespace text[termEnd text (nonTermEnd text q)]
          · refine ⟨q, termEnd text (nonTermEnd text q) + 1, le_refl q, ?_,
              q, hq, le_refl q, by omega, hws⟩
            rw [matchAt, dif_pos ha, dif_pos hb, if_pos hw]
          · have := ih (termEnd text (nonTermEnd text q)) (by omega) hb (by simpa using hw)
            obtain ⟨p, e, hp, hm, hr⟩ := this
            exact ⟨p, e, by omega, hm, hr⟩
        · refine ⟨q, termEnd text (nonTermEnd text q), le_refl q, ?_,
            q, hq, le_refl q, by omega, hws⟩
          rw [matchAt, dif_pos ha, dif_neg hb]
      · -- the non-terminator run reaches the end: the second alternative matches
        refine ⟨q, nonTermEnd text q, le_refl q, ?_, q, hq, le_refl q, by omega, hws⟩
        rw [matchAt, dif_neg ha, if_pos (by omega)]

/-- The defining recurrence of `findMatch` (the fuel supplied is sufficient). -/
lemma findMatch_unfold (text : List Char) (p : Nat) :
    findMatch text p =
      if p < text.length then
        match matchAt text p with
        | some e => some (p, e)
        | none => findMatch text (p + 1)
      else none := by
  by_cases hp : p < text.length
  · rw [if_pos hp]
    have h1 : text.length + 1 - p = (text.length - p) + 1 := by omega
    have h2 : text.length - p = text.length + 1 - (p + 1) := by omega
    rw [findMatch, h1, findMatchAux, if_pos hp, findMatch, ← h2]
  · rw [if_neg hp, findMatch]
    rcases hfuel : text.length + 1 - p with _ | fuel
    · rfl
    · rw [findMatchAux, if_neg hp]

lemma findMatch_some_spec (text : List Char) :
    ∀ p s e, findMatch text p = some (s, e) → p ≤ s ∧ matchAt text s = some e := by
  intro p s e h
  rw [findMatch_unfold] at h
  by_cases hp : p < text.length
  · rw [if_pos hp] at h
    rcases hm : matchAt text p with _ | e'
    · rw [hm] at h
      have := findMatch_some_spec text (p + 1) s e h
      exact ⟨by omega, this.2⟩
    · rw [hm] at h
      cases h
      exact ⟨le_refl p, hm⟩
  · rw [if_neg hp] at h
    exact Option.noConfusion h
termination_by p => text.length - p

lemma findMatch_complete (text : List Char) :
    ∀ p q e', p ≤ q → matchAt text q = some e' →
      ∃ s e, findMatch text p = some (s, e) ∧ s ≤ q := by
  intro p q e' hpq hm
  have hq : q < text.length := matchAt_some_lt text q e' hm
  rw [findMatch_unfold]
  rw [if_pos (show p < text.length by omega)]
  rcases hp : matchAt text p with _ | ep
  · have hne : p ≠ q := by
      intro rfl2
      rw [rfl2, hm] at hp
      exact Option.noConfusion hp
    obtain ⟨s, e, hfind, hse⟩ := findMatch_complete text (p + 1) q e' (by omega) hm
    exact ⟨s, e, hfind, hse⟩
  · exact ⟨p, ep, rfl, hpq⟩
termination_by p => text.length - p

lemma SentChain_mono (len : Nat) (p q : Nat) (l : List (Nat × Nat)) (h : q ≤ p)
    (hc : SentChain len p l) : SentChain len q l := by
  cases l with
  | nil => trivial
  | cons a rest =>
    obtain ⟨h1, h2, h3, h4⟩ := hc
    exact ⟨by omega, h2, h3, h4⟩

lemma sentencesLoop_chain (text : List Char) :
    ∀ fuel p, SentChain text.length p (sentencesLoop text fuel p) := by
  intro fuel
  induction fuel with
  | zero => intro p; trivial
  | succ n ih =>
    intro p
    rw [sentencesLoop]
    rcases hf : findMatch text p with _ | ⟨s, e⟩
    · trivial
    · obtain ⟨h1, h2⟩ := findMatch_some_spec text p s e hf
      obtain ⟨h3, h4⟩ := matchAt_some_bounds text s e h2
      exact ⟨h1, h3, h4, ih e⟩

/-- If some position at or after `ℓ` holds a non-whitespace character, then
some sentence produced from `ℓ` contains a non-whitespace character. -/
lemma sentencesLoop_hit (text : List Char) :
    ∀ fuel ℓ q, text.length - ℓ < fuel → ℓ ≤ q → (hq : q < text.length) →
      jsWhitespace text[q] = false →
      ∃ se ∈ sentencesLoop text fuel ℓ, ∃ r, ∃ hr : r < text.length,
        se.1 ≤ r ∧ r < se.2 ∧ jsWhitespace text[r] = false := by
  intro fuel
  induction fuel with
  | zero => intro ℓ q h _ _ _; omega
  | succ n ih =>
    intro ℓ q hfuel hlq hq hws
    obtain ⟨p, e', hqp, hm, r, hr, hpr, hre, hrws⟩ :=
      matchAt_reach text text.length q (by omega) hq hws
    obtain ⟨s, e, hfind, hsp⟩ := findMatch_complete text ℓ p e' (by omega) hm
    obtain ⟨hls, hms⟩ := findMatch_some_spec text ℓ s e hfind
    obtain ⟨hse, hel⟩ := matchAt_some_bounds text s e hms
    rw [sentencesLoop, hfind]
    by_cases hcase : r < e
    · exact ⟨(s, e), List.mem_cons_self _ _, r, hr, by omega, hcase, hrws⟩
    · have := ih e r (by omega) (by omega) hr hrws
      obtain ⟨se, hmem, hw⟩ := this
      exact ⟨se, List.mem_cons_of_mem _ hmem, hw⟩

lemma sentences_chain (text : List Char) : SentChain text.length 0 (sentences text) :=
  sentencesLoop_chain text (text.length + 1) 0

lemma sentences_hit (text : List Char) (q : Nat) (hq : q < text.length)
    (hws : jsWhitespace text[q] = false) :
    ∃ se ∈ sentences text, ∃ r, ∃ hr : r < text.length,
      se.1 ≤ r ∧ r < se.2 ∧ jsWhitespace text[r] = false :=
  sentencesLoop_hit text (text.length + 1) 0 q (by omega) (by omega) hq hws

/-! ## Lemmas about the speech chunker -/

lemma lastEnd_append (cs : List TTSChunk) (c : TTSChunk) :
    lastEnd (cs ++ [c]) = c.endCharIndex := by
  rw [lastEnd, List.getLast?_concat]
  rfl

lemma ChunksOrd_append (len : Nat) (cs : List TTSChunk) (c : TTSChunk)
    (h : ChunksOrd len cs) (h1 : lastEnd cs ≤ c.startCharIndex)
    (h2 : c.startCharIndex ≤ c.endCharIndex) (h3 : c.endCharIndex ≤ len) :
    ChunksOrd len (cs ++ [c]) := by
  obtain ⟨hchain, hmem⟩ := h
  constructor
  · rw [List.chain'_append]
    refine ⟨hchain, List.chain'_singleton c, ?_⟩
    intro x hx y hy
    simp only [List.head?_cons, Option.mem_def, Option.some.injEq] at hy
    subst hy
    have hle : lastEnd cs = x.endCharIndex := by
      rw [lastEnd, Option.mem_def.mp hx]
      rfl
    omega
  · intro d hd
    rcases List.mem_append.mp hd with hd | hd
    · exact hmem d hd
    · rcases List.mem_singleton.mp hd with rfl
      exact ⟨h2, h3⟩

lemma ttsFold_ord (text : List Char) :
    ∀ (l : List (Nat × Nat)) (chunks : List TTSChunk) (cur : List Char)
      (curStart pos : Nat),
      SentChain text.length pos l → curStart ≤ pos → pos ≤ text.length →
      ChunksOrd text.length chunks → lastEnd chunks ≤ curStart →
      ChunksOrd text.length (ttsFold text l chunks cur curStart pos) := by
  intro l
  induction l with
  | nil =>
    intro chunks cur curStart pos _ h1 h2 h3 h4
    rw [ttsFold]
    by_cases hc : trim cur = []
    · rw [if_pos hc]
      exact h3
    · rw [if_neg hc]
      exact ChunksOrd_append _ _ _ h3 h4 (by (try simp only [lastEnd_append]); (try dsimp only); omega) (le_refl _)
  | cons se rest ih =>
    intro chunks cur curStart pos hchain h1 h2 h3 h4
    obtain ⟨s, e⟩ := se
    obtain ⟨hps, hse, hel, hrest⟩ := hchain
    simp only [ttsFold]
    by_cases ht : trim (slice text s e) = []
    · rw [if_pos ht]
      exact ih chunks cur curStart pos (SentChain_mono _ _ _ _ (by (try simp only [lastEnd_append]); (try dsimp only); omega) hrest) h1 h2 h3 h4
    · rw [if_neg ht]
      by_cases hflush : MAX_SIZE < cur.length + (trim (slice text s e)).length ∧
          MIN_SIZE ≤ cur.length
      · rw [if_pos hflush, if_pos hflush, if_pos hflush]
        have hord1 : ChunksOrd text.length
            (chunks ++ [⟨trim cur, curStart, pos⟩]) :=
          ChunksOrd_append _ _ _ h3 h4 (by (try simp only [lastEnd_append]); (try dsimp only); omega) (by (try simp only [lastEnd_append]); (try dsimp only); omega)
        have hlast1 : lastEnd (chunks ++ [⟨trim cur, curStart, pos⟩]) = pos :=
          lastEnd_append _ _
        by_cases hlong : MAX_SIZE < (trim (slice text s e)).length ∧ ([] : List Char) = []
        · rw [if_pos hlong]
          refine ih _ [] e e hrest (le_refl e) (by (try simp only [lastEnd_append]); (try dsimp only); omega) ?_ ?_
          · refine ChunksOrd_append _ _ _ hord1 ?_ (by (try simp only [lastEnd_append]); (try dsimp only); omega) (by (try simp only [lastEnd_append]); (try dsimp only); omega)
            simp only [lastEnd_append]
            try dsimp only
            omega
          · simp only [lastEnd_append]
            try dsimp only
            omega
        · rw [if_neg hlong]
          by_cases htarget : TARGET_SIZE ≤ (trim (slice text s e)).length
          · rw [if_pos (by simpa using htarget)]
            refine ih _ [] e e hrest (le_refl e) (by (try simp only [lastEnd_append]); (try dsimp only); omega) ?_ ?_
            · refine ChunksOrd_append _ _ _ hord1 ?_ (by (try simp only [lastEnd_append]); (try dsimp only); omega) (by (try simp only [lastEnd_append]); (try dsimp only); omega)
              simp only [lastEnd_append]
              try dsimp only
              omega
            · simp only [lastEnd_append]
              try dsimp only
              omega
          · rw [if_neg (by simpa using htarget)]
            refine ih _ (trim (slice text s e)) s e hrest (by (try simp only [lastEnd_append]); (try dsimp only); omega) (by (try simp only [lastEnd_append]); (try dsimp only); omega) hord1 ?_
            simp only [lastEnd_append]
            try dsimp only
            omega
      · rw [if_neg hflush, if_neg hflush, if_neg hflush]
        by_cases hlong : MAX_SIZE < (trim (slice text s e)).length ∧ cur = []
        · rw [if_pos hlong]
          refine ih _ [] e e hrest (le_refl e) (by (try simp only [lastEnd_append]); (try dsimp only); omega) ?_ ?_
          · exact ChunksOrd_append _ _ _ h3 (by (try simp only [lastEnd_append]); (try dsimp only); omega) (by (try simp only [lastEnd_append]); (try dsimp only); omega) (by (try simp only [lastEnd_append]); (try dsimp only); omega)
          · simp only [lastEnd_append]
            try dsimp only
            omega
        · rw [if_neg hlong]
          by_cases hcur : cur = []
          · rw [if_pos hcur]
            by_cases htarget : TARGET_SIZE ≤ (trim (slice text s e)).length
            · rw [if_pos htarget]
              refine ih _ [] e e hrest (le_refl e) (by (try simp only [lastEnd_append]); (try dsimp only); omega) ?_ ?_
              · exact ChunksOrd_append _ _ _ h3 (by (try simp only [lastEnd_append]); (try dsimp only); omega) (by (try simp only [lastEnd_append]); (try dsimp only); omega) (by (try simp only [lastEnd_append]); (try dsimp only); omega)
              · simp only [lastEnd_append]
                try dsimp only
                omega
            · rw [if_neg htarget]
              exact ih _ (trim (slice text s e)) curStart e hrest (by (try simp only [lastEnd_append]); (try dsimp only); omega) (by (try simp only [lastEnd_append]); (try dsimp only); omega) h3
                (by (try simp only [lastEnd_append]); (try dsimp only); omega)
          · rw [if_neg hcur]
            by_cases htarget : TARGET_SIZE ≤ (cur ++ ' ' :: trim (slice text s e)).length
            · rw [if_pos htarget]
              refine ih _ [] e e hrest (le_refl e) (by (try simp only [lastEnd_append]); (try dsimp only); omega) ?_ ?_
              · exact ChunksOrd_append _ _ _ h3 (by (try simp only [lastEnd_append]); (try dsimp only); omega) (by (try simp only [lastEnd_append]); (try dsimp only); omega) (by (try simp only [lastEnd_append]); (try dsimp only); omega)
              · simp only [lastEnd_append]
                try dsimp only
                omega
            · rw [if_neg htarget]
              exact ih _ (cur ++ ' ' :: trim (slice text s e)) curStart e hrest (by (try simp only [lastEnd_append]); (try dsimp only); omega)
                (by (try simp only [lastEnd_append]); (try dsimp only); omega) h3 (by (try simp only [lastEnd_append]); (try dsimp only); omega)

lemma forall_append_one {P : TTSChunk → Prop} (cs : List TTSChunk) (c : TTSChunk)
    (h1 : ∀ d ∈ cs, P d) (h2 : P c) : ∀ d ∈ cs ++ [c], P d := by
  intro d hd
  rcases List.mem_append.mp hd with hd | hd
  · exact h1 d hd
  · rcases List.mem_singleton.mp hd with rfl
    exact h2

lemma le_foldr_max (l : List Nat) (x : Nat) (h : x ∈ l) : x ≤ l.foldr max 0 := by
  induction l with
  | nil => cases h
  | cons a l ih =>
    rcases List.mem_cons.mp h with rfl | h
    · exact le_max_left _ _
    · exact le_trans (ih h) (le_max_right _ _)

lemma sent_le_maxSentLen (text : List Char) (se : Nat × Nat) (h : se ∈ sentences text) :
    (trim (slice text se.1 se.2)).length ≤ maxSentLen text := by
  refine le_foldr_max _ _ ?_
  exact List.mem_map_of_mem (fun se => (trim (slice text se.1 se.2)).length) h

/-- Every chunk the speech chunker accumulates is non-empty and no longer than
`TARGET_SIZE` plus the longest trimmed sentence. -/
lemma ttsFold_len (text : List Char) (M : Nat) :
    ∀ (l : List (Nat × Nat)) (chunks : List TTSChunk) (cur : List Char)
      (curStart pos : Nat),
      (∀ se ∈ l, (trim (slice text se.1 se.2)).length ≤ M) →
      trim cur = cur → cur.length < TARGET_SIZE →
      (∀ c ∈ chunks, 1 ≤ c.text.length ∧ c.text.length ≤ TARGET_SIZE + M) →
      ∀ c ∈ ttsFold text l chunks cur curStart pos,
        1 ≤ c.text.length ∧ c.text.length ≤ TARGET_SIZE + M := by
  intro l
  induction l with
  | nil =>
    intro chunks cur curStart pos _ hcur hlen hchunks
    rw [ttsFold]
    by_cases hc : trim cur = []
    · rw [if_pos hc]
      exact hchunks
    · rw [if_neg hc]
      refine forall_append_one chunks _ hchunks ?_
      rw [hcur] at hc ⊢
      dsimp only
      constructor
      · exact Nat.one_le_iff_ne_zero.mpr (fun h0 => hc (List.length_eq_zero.mp h0))
      · omega
  | cons se rest ih =>
    intro chunks cur curStart pos hM hcur hlen hchunks
    obtain ⟨s, e⟩ := se
    have hMt : (trim (slice text s e)).length ≤ M := hM (s, e) (List.mem_cons_self _ _)
    have hMrest : ∀ se ∈ rest, (trim (slice text se.1 se.2)).length ≤ M :=
      fun se hse => hM se (List.mem_cons_of_mem _ hse)
    simp only [ttsFold]
    by_cases ht : trim (slice text s e) = []
    · rw [if_pos ht]
      exact ih chunks cur curStart pos hMrest hcur hlen hchunks
    · rw [if_neg ht]
      have ht1 : 1 ≤ (trim (slice text s e)).length :=
        Nat.one_le_iff_ne_zero.mpr (fun h0 => ht (List.length_eq_zero.mp h0))
      have httrim : trim (trim (slice text s e)) = trim (slice text s e) := trim_idem _
      by_cases hflush : MAX_SIZE < cur.length + (trim (slice text s e)).length ∧
          MIN_SIZE ≤ cur.length
      · rw [if_pos hflush, if_pos hflush, if_pos hflush]
        have hchunks1 : ∀ c ∈ chunks ++ [⟨trim cur, curStart, pos⟩],
            1 ≤ c.text.length ∧ c.text.length ≤ TARGET_SIZE + M := by
          refine forall_append_one chunks _ hchunks ?_
          rw [hcur]
          dsimp only
          have : MIN_SIZE ≤ cur.length := hflush.2
          constructor <;> [skip; omega]
          have : MIN_SIZE = 200 := rfl
          omega
        by_cases hlong : MAX_SIZE < (trim (slice text s e)).length ∧ ([] : List Char) = []
        · rw [if_pos hlong]
          refine ih _ [] e e hMrest rfl (by simp [TARGET_SIZE]) ?_
          refine forall_append_one _ _ hchunks1 ?_
          dsimp only
          omega
        · rw [if_neg hlong]
          by_cases htarget : TARGET_SIZE ≤ (trim (slice text s e)).length
          · rw [if_pos (by simpa using htarget)]
            refine ih _ [] e e hMrest rfl (by simp [TARGET_SIZE]) ?_
            refine forall_append_one _ _ hchunks1 ?_
            rw [if_pos (show ([] : List Char) = [] from rfl), httrim]
            dsimp only
            omega
          · rw [if_neg (by simpa using htarget)]
            exact ih _ (trim (slice text s e)) s e hMrest httrim (by omega) hchunks1
      · rw [if_neg hflush, if_neg hflush, if_neg hflush]
        by_cases hlong : MAX_SIZE < (trim (slice text s e)).length ∧ cur = []
        · rw [if_pos hlong]
          refine ih _ [] e e hMrest rfl (by simp [TARGET_SIZE]) ?_
          refine forall_append_one _ _ hchunks ?_
          dsimp only
          omega
        · rw [if_neg hlong]
          by_cases hcurnil : cur = []
          · rw [if_pos hcurnil]
            by_cases htarget : TARGET_SIZE ≤ (trim (slice text s e)).length
            · rw [if_pos htarget]
              refine ih _ [] e e hMrest rfl (by simp [TARGET_SIZE]) ?_
              refine forall_append_one _ _ hchunks ?_
              rw [httrim]
              dsimp only
              omega
            · rw [if_neg htarget]
              exact ih _ (trim (slice text s e)) curStart e hMrest httrim (by omega) hchunks
          · rw [if_neg hcurnil]
            have hcur2 : trim (cur ++ ' ' :: trim (slice text s e)) =
                cur ++ ' ' :: trim (slice text s e) :=
              trim_append cur (trim (slice text s e)) hcur httrim hcurnil ht
            have hlen2 : (cur ++ ' ' :: trim (slice text s e)).length =
                cur.length + 1 + (trim (slice text s e)).length := by
              simp
              omega
            by_cases htarget : TARGET_SIZE ≤ (cur ++ ' ' :: trim (slice text s e)).length
            · rw [if_pos htarget]
              refine ih _ [] e e hMrest rfl (by simp [TARGET_SIZE]) ?_
              refine forall_append_one _ _ hchunks ?_
              rw [hcur2]
              dsimp only
              rw [hlen2] at htarget ⊢
              constructor
              · have : TARGET_SIZE = 400 := rfl
                omega
              · omega
            · rw [if_neg htarget]
              refine ih _ (cur ++ ' ' :: trim (slice text s e)) curStart e hMrest hcur2 ?_
                hchunks
              omega

/-- `ttsFold` only ever appends to the accumulated chunk list. -/
lemma ttsFold_extends (text : List Char) :
    ∀ (l : List (Nat × Nat)) (chunks : List TTSChunk) (cur : List Char)
      (curStart pos : Nat),
      chunks <+: ttsFold text l chunks cur curStart pos := by
  intro l
  induction l with
  | nil =>
    intro chunks cur curStart pos
    rw [ttsFold]
    by_cases hc : trim cur = []
    · rw [if_pos hc]
    · rw [if_neg hc]
      exact List.prefix_append _ _
  | cons se rest ih =>
    intro chunks cur curStart pos
    obtain ⟨s, e⟩ := se
    simp only [ttsFold]
    by_cases ht : trim (slice text s e) = []
    · rw [if_pos ht]
      exact ih chunks cur curStart pos
    · rw [if_neg ht]
      by_cases hflush : MAX_SIZE < cur.length + (trim (slice text s e)).length ∧
          MIN_SIZE ≤ cur.length
      · rw [if_pos hflush, if_pos hflush, if_pos hflush]
        by_cases hlong : MAX_SIZE < (trim (slice text s e)).length ∧ ([] : List Char) = []
        · rw [if_pos hlong]
          refine List.IsPrefix.trans ?_ (ih _ _ _ _)
          exact (List.prefix_append _ _).trans (List.prefix_append _ _)
        · rw [if_neg hlong]
          by_cases htarget : TARGET_SIZE ≤ (trim (slice text s e)).length
          · rw [if_pos (by simpa using htarget)]
            refine List.IsPrefix.trans ?_ (ih _ _ _ _)
            exact (List.prefix_append _ _).trans (List.prefix_append _ _)
          · rw [if_neg (by simpa using htarget)]
            exact (List.prefix_append _ _).trans (ih _ _ _ _)
      · rw [if_neg hflush, if_neg hflush, if_neg hflush]
        by_cases hlong : MAX_SIZE < (trim (slice text s e)).length ∧ cur = []
        · rw [if_pos hlong]
          exact (List.prefix_append _ _).trans (ih _ _ _ _)
        · rw [if_neg hlong]
          by_cases hcurnil : cur = []
          · rw [if_pos hcurnil]
            by_cases htarget : TARGET_SIZE ≤ (trim (slice text s e)).length
            · rw [if_pos htarget]
              exact (List.prefix_append _ _).trans (ih _ _ _ _)
            · rw [if_neg htarget]
              exact ih _ _ _ _
          · rw [if_neg hcurnil]
            by_cases htarget : TARGET_SIZE ≤ (cur ++ ' ' :: trim (slice text s e)).length
            · rw [if_pos htarget]
              exact (List.prefix_append _ _).trans (ih _ _ _ _)
            · rw [if_neg htarget]
              exact ih _ _ _ _

lemma prefix_ne_nil {x y : List TTSChunk} (h : x <+: y) (hx : x ≠ []) : y ≠ [] := by
  obtain ⟨t, rfl⟩ := h
  simp [hx]

/-- Once the running chunk is non-empty (and in trimmed form), the fold cannot
return an empty chunk list: the running chunk is eventually flushed. -/
lemma ttsFold_ne_nil_of_cur (text : List Char) :
    ∀ (l : List (Nat × Nat)) (chunks : List TTSChunk) (cur : List Char)
      (curStart pos : Nat),
      trim cur = cur → cur ≠ [] →
      ttsFold text l chunks cur curStart pos ≠ [] := by
  intro l
  induction l with
  | nil =>
    intro chunks cur curStart pos hcur hne
    rw [ttsFold]
    rw [hcur, if_neg hne]
    simp
  | cons se rest ih =>
    intro chunks cur curStart pos hcur hne
    obtain ⟨s, e⟩ := se
    simp only [ttsFold]
    by_cases ht : trim (slice text s e) = []
    · rw [if_pos ht]
      exact ih chunks cur curStart pos hcur hne
    · rw [if_neg ht]
      by_cases hflush : MAX_SIZE < cur.length + (trim (slice text s e)).length ∧
          MIN_SIZE ≤ cur.length
      · rw [if_pos hflush, if_pos hflush, if_pos hflush]
        by_cases hlong : MAX_SIZE < (trim (slice text s e)).length ∧ ([] : List Char) = []
        · rw [if_pos hlong]
          refine prefix_ne_nil (ttsFold_extends text _ _ _ _ _) ?_
          simp
        · rw [if_neg hlong]
          by_cases htarget : TARGET_SIZE ≤ (trim (slice text s e)).length
          · rw [if_pos (by simpa using htarget)]
            refine prefix_ne_nil (ttsFold_extends text _ _ _ _ _) ?_
            simp
          · rw [if_neg (by simpa using htarget)]
            refine prefix_ne_nil (ttsFold_extends text _ _ _ _ _) ?_
            simp
      · rw [if_neg hflush, if_neg hflush, if_neg hflush]
        by_cases hlong : MAX_SIZE < (trim (slice text s e)).length ∧ cur = []
        · exact absurd hlong.2 hne
        · rw [if_neg hlong]
          rw [if_neg hne]
          by_cases htarget : TARGET_SIZE ≤ (cur ++ ' ' :: trim (slice text s e)).length
          · rw [if_pos htarget]
            refine prefix_ne_nil (ttsFold_extends text _ _ _ _ _) ?_
            simp
          · rw [if_neg htarget]
            refine ih _ _ _ _ (trim_append cur _ hcur (trim_idem _) hne ht) ?_
            simp

lemma ttsFold_eq_nil (text : List Char) :
    ∀ (l : List (Nat × Nat)) (chunks : List TTSChunk) (cur : List Char)
      (curStart pos : Nat),
      trim cur = cur →
      ttsFold text l chunks cur curStart pos = [] →
      chunks = [] ∧ ∀ se ∈ l, trim (slice text se.1 se.2) = [] := by
  intro l
  induction l with
  | nil =>
    intro chunks cur curStart pos hcur h
    rw [ttsFold] at h
    by_cases hc : trim cur = []
    · rw [if_pos hc] at h
      exact ⟨h, fun se hse => absurd hse (List.not_mem_nil se)⟩
    · rw [if_neg hc] at h
      exact absurd h (by simp)
  | cons se rest ih =>
    intro chunks cur curStart pos hcur h
    obtain ⟨s, e⟩ := se
    simp only [ttsFold] at h
    by_cases ht : trim (slice text s e) = []
    · rw [if_pos ht] at h
      obtain ⟨h1, h2⟩ := ih chunks cur curStart pos hcur h
      refine ⟨h1, ?_⟩
      intro se hse
      rcases List.mem_cons.mp hse with rfl | hse
      · exact ht
      · exact h2 se hse
    · exfalso
      rw [if_neg ht] at h
      by_cases hflush : MAX_SIZE < cur.length + (trim (slice text s e)).length ∧
          MIN_SIZE ≤ cur.length
      · rw [if_pos hflush, if_pos hflush, if_pos hflush] at h
        by_cases hlong : MAX_SIZE < (trim (slice text s e)).length ∧ ([] : List Char) = []
        · rw [if_pos hlong] at h
          exact prefix_ne_nil (ttsFold_extends text _ _ _ _ _) (by simp) h
        · rw [if_neg hlong] at h
          by_cases htarget : TARGET_SIZE ≤ (trim (slice text s e)).length
          · rw [if_pos (by simpa using htarget)] at h
            exact prefix_ne_nil (ttsFold_extends text _ _ _ _ _) (by simp) h
          · rw [if_neg (by simpa using htarget)] at h
            exact prefix_ne_nil (ttsFold_extends text _ _ _ _ _) (by simp) h
      · rw [if_neg hflush, if_neg hflush, if_neg hflush] at h
        by_cases hlong : MAX_SIZE < (trim (slice text s e)).length ∧ cur = []
        · rw [if_pos hlong] at h
          exact prefix_ne_nil (ttsFold_extends text _ _ _ _ _) (by simp) h
        · rw [if_neg hlong] at h
          by_cases hcurnil : cur = []
          · rw [if_pos hcurnil] at h
            by_cases htarget : TARGET_SIZE ≤ (trim (slice text s e)).length
            · rw [if_pos htarget] at h
              exact prefix_ne_nil (ttsFold_extends text _ _ _ _ _) (by simp) h
            · rw [if_neg htarget] at h
              exact ttsFold_ne_nil_of_cur text _ _ _ _ _ (trim_idem _) ht h
          · rw [if_neg hcurnil] at h
            by_cases htarget : TARGET_SIZE ≤ (cur ++ ' ' :: trim (slice text s e)).length
            · rw [if_pos htarget] at h
              exact prefix_ne_nil (ttsFold_extends text _ _ _ _ _) (by simp) h
            · rw [if_neg htarget] at h
              exact ttsFold_ne_nil_of_cur text _ _ _ _ _
                (trim_append cur _ hcur (trim_idem _) hcurnil ht) (by simp) h

lemma ttsFold_all_skip (text : List Char) :
    ∀ (l : List (Nat × Nat)) (chunks : List TTSChunk) (cur : List Char)
      (curStart pos : Nat),
      (∀ se ∈ l, trim (slice text se.1 se.2) = []) → trim cur = [] →
      ttsFold text l chunks cur curStart pos = chunks := by
  intro l
  induction l with
  | nil =>
    intro chunks cur curStart pos _ hcur
    rw [ttsFold, if_pos hcur]
  | cons se rest ih =>
    intro chunks cur curStart pos hall hcur
    obtain ⟨s, e⟩ := se
    simp only [ttsFold]
    rw [if_pos (hall (s, e) (List.mem_cons_self _ _))]
    exact ih chunks cur curStart pos (fun se hse => hall se (List.mem_cons_of_mem _ hse)) hcur

lemma chunkTextForTTS_eq_nil_iff (text : List Char) :
    chunkTextForTTS text = [] ↔ ∀ c ∈ text, jsWhitespace c := by
  constructor
  · intro h
    by_contra hcon
    push_neg at hcon
    obtain ⟨c, hc, hw⟩ := hcon
    obtain ⟨q, hq, hqc⟩ := List.mem_iff_getElem.mp hc
    obtain ⟨_, hsent⟩ := ttsFold_eq_nil text (sentences text) [] [] 0 0 rfl h
    obtain ⟨se, hse, r, hr, h1, h2, h3⟩ := sentences_hit text q hq
      (by rw [hqc]; simpa using hw)
    have hmem : text[r] ∈ slice text se.1 se.2 := getElem_mem_slice text se.1 se.2 r h1 h2 hr
    exact trim_ne_nil_of_mem _ _ hmem h3 (hsent se hse)
  · intro h
    rw [chunkTextForTTS]
    refine ttsFold_all_skip text _ [] [] 0 0 ?_ rfl
    intro se _
    exact (trim_eq_nil_iff _).mpr (fun c hc => h c (slice_subset _ _ _ c hc))

/-! ## Lemmas about the speech job loops -/

lemma range_map_succ_shift (len i : Nat) :
    (List.range (len + 1)).map (fun j => j + i) =
      i :: (List.range len).map (fun j => j + (i + 1)) := by
  rw [List.range_succ_eq_map, List.map_cons, List.map_map]
  congr 1
  · omega
  · have : ((fun j => j + i) ∘ Nat.succ) = (fun j => j + (i + 1)) := by
      funext j
      simp only [Function.comp_apply]
      omega
    rw [this]

/-- Characterisation of the `processDocumentTTS` chunk loop: the saved rows
carry exactly the successful indices in increasing order, `successCount` is
the number of saved rows, and together with the failure count it accounts for
every chunk. -/
lemma ttsJobLoop_spec (outcome : Nat → Bool) :
    ∀ (l : List TTSChunk) (i : Nat),
      (ttsJobLoop l i outcome).2.map Prod.fst =
        ((List.range l.length).map (fun j => j + i)).filter outcome ∧
      (ttsJobLoop l i outcome).2.length = (ttsJobLoop l i outcome).1 ∧
      (ttsJobLoop l i outcome).1 +
        ((List.range l.length).map (fun j => j + i)).countP (fun j => !outcome j) =
        l.length := by
  intro l
  induction l with
  | nil => intro i; exact ⟨rfl, rfl, rfl⟩
  | cons c rest ih =>
    intro i
    obtain ⟨ih1, ih2, ih3⟩ := ih (i + 1)
    rw [List.length_cons, range_map_succ_shift]
    by_cases h : outcome i
    · have hstep : ttsJobLoop (c :: rest) i outcome =
          ((ttsJobLoop rest (i + 1) outcome).1 + 1,
            (i, c) :: (ttsJobLoop rest (i + 1) outcome).2) := by
        simp only [ttsJobLoop]
        rw [if_pos h]
      rw [hstep, List.filter_cons_of_pos h,
        List.countP_cons_of_neg _ _ (by simp [h])]
      refine ⟨?_, ?_, ?_⟩
      · dsimp only
        rw [List.map_cons, ih1]
      · dsimp only
        rw [List.length_cons, ih2]
      · dsimp only
        omega
    · have hstep : ttsJobLoop (c :: rest) i outcome =
          ((ttsJobLoop rest (i + 1) outcome).1,
            (ttsJobLoop rest (i + 1) outcome).2) := by
        simp only [ttsJobLoop]
        rw [if_neg h]
      rw [hstep, List.filter_cons_of_neg (by simpa using h),
        List.countP_cons_of_pos _ _ (by simp [h])]
      refine ⟨?_, ?_, ?_⟩
      · dsimp only
        exact ih1
      · dsimp only
        exact ih2
      · dsimp only
        omega

lemma ttsJobLoop_zero (outcome : Nat → Bool) (l : List TTSChunk) :
    (ttsJobLoop l 0 outcome).2.map Prod.fst = (List.range l.length).filter outcome ∧
    (ttsJobLoop l 0 outcome).2.length = (ttsJobLoop l 0 outcome).1 ∧
    (ttsJobLoop l 0 outcome).1 +
      (List.range l.length).countP (fun j => !outcome j) = l.length := by
  have h := ttsJobLoop_spec outcome l 0
  have hid : ((List.range l.length).map (fun j => j + 0)) = List.range l.length := by
    have : (fun j : Nat => j + 0) = id := by
      funext j
      exact Nat.add_zero j
    rw [this, List.map_id]
  rw [hid] at h
  exact h

/-- Reduction of `processDocumentTTS` past all its guards. -/
lemma processDocumentTTS_run (doc : Document) (t : List Char)
    (chunks : List TTSChunk) (outcome : Nat → Bool)
    (htext : doc.extractedText = some t) (hne : t ≠ [])
    (hguard : ¬(doc.ttsStatus = some StageStatus.processing ∨
      doc.ttsStatus = some StageStatus.ready)) :
    processDocumentTTS (some doc) 0 chunks outcome =
      (if 0 < (ttsJobLoop chunks 0 outcome).1 then
        ⟨some { doc with ttsStatus := some StageStatus.ready },
          (ttsJobLoop chunks 0 outcome).2, chunks.length, true⟩
      else
        ⟨some { doc with
                  ttsStatus := some StageStatus.error,
                  ttsError := some "All chunks failed to generate" },
          (ttsJobLoop chunks 0 outcome).2, chunks.length, true⟩) := by
  simp only [processDocumentTTS, htext]
  rw [if_neg hne, if_neg hguard, if_neg (lt_irrefl 0)]

/-! ## Claim theorems -/

/-- Claim C1: the claim says the indexing chunker advances `start` to
`end - 200` so consecutive chunks overlap.  In the code the clamp
`if (start >= end - CHUNK_OVERLAP) start = end` always fires, because `start`
was just assigned `end - CHUNK_OVERLAP`: the next window starts exactly at the
previous window's end, never 200 before it.  Concretely, on 1100 copies of
`a` the two chunks occupy `[0, 1000)` and `[1000, 1100)`: the second chunk
starts at 1000, the first chunk's end, not at 800. -/
theorem chunkText_never_overlaps :
    (∀ e, nextStart e = e) ∧
    (chunkTextBounds exNoOverlap).map (fun t => (t.1, t.2.1)) =
      [(0, 1000), (1000, 1100)] := by
  refine ⟨nextStart_eq, ?_⟩
  decide

/-- Claim C2 (counterexample): on a successful extraction the handler sets
extraction `ready`, but leaves `ttsStatus` untouched (still `pending`) and
schedules no speech job — the claim's "transitions the Speech stage to
processing" is false. -/
theorem extraction_success_no_speech_trigger_cex :
    (processDocument (some docPending) (Except.ok (some ['x']))).1.map Document.status =
      some DocStatus.ready ∧
    (processDocument (some docPending) (Except.ok (some ['x']))).1.map Document.ttsStatus ≠
      some (some StageStatus.processing) ∧
    ScheduledJob.processTTSJob ∉
      (processDocument (some docPending) (Except.ok (some ['x']))).2 := by
  refine ⟨by decide, by decide, by decide⟩

/-- Claim C2 (amended): when extraction succeeds with non-empty text the
handler stores the text, sets extraction status `ready`, transitions only the
Indexing stage to `processing` and schedules only the embeddings action; the
Speech stage's fields are untouched and no speech job is scheduled. -/
theorem extraction_success_triggers_only_indexing (doc : Document) (t : List Char)
    (ht : t ≠ []) :
    processDocument (some doc) (Except.ok (some t)) =
      (some { doc with
                status := DocStatus.ready,
                extractedText := some t,
                embeddingStatus := some StageStatus.processing },
       [ScheduledJob.processEmbeddingsJob]) := by
  simp only [processDocument]
  rw [if_neg ht]

/-- Witness for the amended claim C2 at a concrete document and text. -/
theorem extraction_success_triggers_only_indexing_witness :
    processDocument (some docPending) (Except.ok (some ['x'])) =
      (some { docPending with
                status := DocStatus.ready,
                extractedText := some ['x'],
                embeddingStatus := some StageStatus.processing },
       [ScheduledJob.processEmbeddingsJob]) :=
  extraction_success_triggers_only_indexing docPending ['x'] (by decide)

/-- Claim C3 (counterexample): `processDocumentEmbeddings` has no idempotency
guard.  Re-invoking it on a document whose `embeddingStatus` is already
`ready` performs the external `rag.add` call again (1 call, not 0), so the
re-invocation is not a no-op for the Indexing stage. -/
theorem indexing_trigger_not_idempotent_cex :
    docIndexed.embeddingStatus = some StageStatus.ready ∧
    (processDocumentEmbeddings (some docIndexed) "doc1" (Except.ok ())).2 = 1 := by
  refine ⟨by decide, by decide⟩

/-- Claim C3 (amended): the Speech trigger `processDocumentTTS` is a no-op
while `ttsStatus` is `processing` or `ready` — no external call, no saved
chunk, no status change; the Indexing trigger has no such guard. -/
theorem speech_trigger_idempotent (doc : Document) (existing : Nat)
    (chunks : List TTSChunk) (outcome : Nat → Bool)
    (h : doc.ttsStatus = some StageStatus.processing ∨
      doc.ttsStatus = some StageStatus.ready) :
    processDocumentTTS (some doc) existing chunks outcome =
      ⟨some doc, [], 0, false⟩ := by
  rcases htext : doc.extractedText with _ | t
  · simp only [processDocumentTTS, htext]
  · simp only [processDocumentTTS, htext]
    by_cases hne : t = []
    · rw [if_pos hne]
    · rw [if_neg hne, if_pos h]

/-- Witness for the amended claim C3 at a concrete document. -/
theorem speech_trigger_idempotent_witness :
    processDocumentTTS (some { docPending with ttsStatus := some StageStatus.processing })
        0 [chunkA] (fun _ => true) =
      ⟨some { docPending with ttsStatus := some StageStatus.processing }, [], 0, false⟩ :=
  speech_trigger_idempotent _ 0 [chunkA] (fun _ => true) (Or.inl rfl)

/-- Claim C4 (counterexample): on `exLong` the speech chunker emits a
non-final chunk of 651 characters, above `MAX_SIZE = 600`: a 500-character
sentence is appended to a 150-character running chunk because the running
chunk is still below `MIN_SIZE`, and the combined chunk is then flushed. -/
theorem speech_chunker_max_size_cex :
    (chunkTextForTTS exLong).map (fun c => c.text.length) = [651, 101] ∧
    ¬ (651 ≤ MAX_SIZE) := by
  refine ⟨by decide, by decide⟩

/-- Claim C4 (amended): every chunk the speech chunker produces is non-empty,
and no chunk is longer than `TARGET_SIZE` plus the longest trimmed sentence
(the `MAX_SIZE` bound of the claim can be exceeded by non-final chunks). -/
theorem speech_chunk_length_bounds (text : List Char) (c : TTSChunk)
    (hc : c ∈ chunkTextForTTS text) :
    1 ≤ c.text.length ∧ c.text.length ≤ TARGET_SIZE + maxSentLen text := by
  refine ttsFold_len text (maxSentLen text) (sentences text) [] [] 0 0
    (fun se hse => sent_le_maxSentLen text se hse) rfl (by decide) ?_ c hc
  intro d hd
  exact absurd hd (List.not_mem_nil d)

/-- Witness for the amended claim C4 on the text `"Hi. "`. -/
theorem speech_chunk_length_bounds_witness :
    1 ≤ (⟨['H', 'i', '.'], 0, 4⟩ : TTSChunk).text.length ∧
    (⟨['H', 'i', '.'], 0, 4⟩ : TTSChunk).text.length ≤
      TARGET_SIZE + maxSentLen ['H', 'i', '.', ' '] :=
  speech_chunk_length_bounds ['H', 'i', '.', ' '] ⟨['H', 'i', '.'], 0, 4⟩ (by decide)

/-- Claim C5 (counterexample): on `exGap` (705 characters) the speech chunker
returns chunks covering `[0, 301)` and `[303, 705)`: the offsets are ordered
and non-overlapping but not gapless — no chunk covers `[301, 303)` (the
`".."` that the sentence regex skips), so the ranges do not cover the input. -/
theorem speech_chunker_gap_cex :
    (chunkTextForTTS exGap).map (fun c => (c.startCharIndex, c.endCharIndex)) =
      [(0, 301), (303, 705)] ∧
    exGap.length = 705 ∧ (301 : Nat) ≠ 303 := by
  refine ⟨by decide, by decide, by decide⟩

/-- Claim C5 (amended): the speech chunker's offset ranges are well-formed,
ordered and non-overlapping — each chunk's start offset is at least the
previous chunk's end offset and every range ends inside the text — but they
are not always gapless. -/
theorem speech_chunks_ordered (text : List Char) :
    ChunksOrd text.length (chunkTextForTTS text) := by
  rw [chunkTextForTTS]
  exact ttsFold_ord text (sentences text) [] [] 0 0 (sentences_chain text) (le_refl 0)
    (Nat.zero_le _) ⟨List.chain'_nil, fun c hc => absurd hc (List.not_mem_nil c)⟩
    (le_refl 0)

/-- Claim C6 (counterexample): when all chunk jobs fail the status is set to
`error` as claimed, but the stored message is `"All chunks failed to
generate"`, not `"all chunks failed"`. -/
theorem speech_all_failed_message_cex :
    (processDocumentTTS (some docPending) 0 [chunkA] (fun _ => false)).doc.map
      Document.ttsStatus = some (some StageStatus.error) ∧
    (processDocumentTTS (some docPending) 0 [chunkA] (fun _ => false)).doc.map
      Document.ttsError = some (some "All chunks failed to generate") ∧
    (some (some "All chunks failed to generate") : Option (Option String)) ≠
      some (some "all chunks failed") := by
  refine ⟨by decide, by decide, by decide⟩

/-- Claim C6 (amended): for a run over `n` chunks with `k` permanent
failures, if `k < n` the final status is `ready`, if `k = n` it is `error`
with message `"All chunks failed to generate"`, and exactly `n - k` chunk
rows are persisted. -/
theorem speech_partial_failure_status (doc : Document) (t : List Char)
    (chunks : List TTSChunk) (outcome : Nat → Bool)
    (htext : doc.extractedText = some t) (hne : t ≠ [])
    (hguard : ¬(doc.ttsStatus = some StageStatus.processing ∨
      doc.ttsStatus = some StageStatus.ready)) :
    ((List.range chunks.length).countP (fun j => !outcome j) < chunks.length →
      (processDocumentTTS (some doc) 0 chunks outcome).doc =
        some { doc with ttsStatus := some StageStatus.ready }) ∧
    ((List.range chunks.length).countP (fun j => !outcome j) = chunks.length →
      (processDocumentTTS (some doc) 0 chunks outcome).doc =
        some { doc with
                 ttsStatus := some StageStatus.error,
                 ttsError := some "All chunks failed to generate" }) ∧
    (processDocumentTTS (some doc) 0 chunks outcome).saved.length =
      chunks.length - (List.range chunks.length).countP (fun j => !outcome j) := by
  obtain ⟨hs1, hs2, hs3⟩ := ttsJobLoop_zero outcome chunks
  rw [processDocumentTTS_run doc t chunks outcome htext hne hguard]
  refine ⟨?_, ?_, ?_⟩
  · intro hk
    rw [if_pos (by omega)]
  · intro hk
    rw [if_neg (by omega)]
  · by_cases hpos : 0 < (ttsJobLoop chunks 0 outcome).1
    · rw [if_pos hpos]
      dsimp only
      omega
    · rw [if_neg hpos]
      dsimp only
      omega

/-- Witness for the amended claim C6: two chunks, job 0 fails and job 1
succeeds, so the run ends `ready` with one persisted chunk. -/
theorem speech_partial_failure_status_witness :
    (processDocumentTTS (some docPending) 0 [chunkA, chunkA] (fun j => j == 1)).doc =
      some { docPending with ttsStatus := some StageStatus.ready } ∧
    (processDocumentTTS (some docPending) 0 [chunkA, chunkA] (fun j => j == 1)).saved.length =
      [chunkA, chunkA].length -
        (List.range [chunkA, chunkA].length).countP (fun j => !(j == 1)) := by
  have h := speech_partial_failure_status docPending ['x'] [chunkA, chunkA]
    (fun j => j == 1) rfl (by decide) (by decide)
  exact ⟨h.1 (by decide), h.2.2⟩

/-- Claim C7: the claim says no failure path leaves a stage stuck at
`processing` with no recorded outcome.  The public speech action
`generateDocumentAudio` runs its chunk loop without a `try`/`catch`: when a
chunk job throws, the exception propagates (`ret = none`), the document is
left with `ttsStatus = "processing"`, and no `ttsError` is recorded — and the
`processing` guard then blocks every later retry. -/
theorem generateDocumentAudio_stuck_processing :
    (generateDocumentAudio (some docPending) 0 [chunkA] (fun _ => false)).doc.map
      Document.ttsStatus = some (some StageStatus.processing) ∧
    (generateDocumentAudio (some docPending) 0 [chunkA] (fun _ => false)).doc.map
      Document.ttsError = some none ∧
    (generateDocumentAudio (some docPending) 0 [chunkA] (fun _ => false)).ret = none := by
  refine ⟨by decide, by decide, by decide⟩

/-- Claim C8: both segmentation algorithms (embedded here as pure Lean
functions, so determinism is by construction) return zero chunks exactly when
the input is empty or consists only of whitespace; any input containing a
non-whitespace character yields at least one chunk. -/
theorem chunkers_zero_chunks_iff_whitespace (text : List Char) :
    (chunkText text = [] ↔ ∀ c ∈ text, jsWhitespace c) ∧
    (chunkTextForTTS text = [] ↔ ∀ c ∈ text, jsWhitespace c) :=
  ⟨chunkText_eq_nil_iff text, chunkTextForTTS_eq_nil_iff text⟩

/-- Claim C9 (counterexample): two chunks, job 0 fails permanently, job 1
succeeds.  The run ends `ready` with persisted index set `{1}`, which is not
the contiguous range `[0, 1)` — the claimed invariant fails under partial
failure. -/
theorem speech_indices_not_contiguous_cex :
    (processDocumentTTS (some docPending) 0 [chunkA, chunkA] (fun j => j == 1)).doc.map
      Document.ttsStatus = some (some StageStatus.ready) ∧
    (processDocumentTTS (some docPending) 0 [chunkA, chunkA] (fun j => j == 1)).saved.map
      Prod.fst = [1] ∧
    ([1] : List Nat) ≠ List.range
      ((processDocumentTTS (some docPending) 0 [chunkA, chunkA]
        (fun j => j == 1)).saved.length) := by
  refine ⟨by decide, by decide, by decide⟩

/-- Claim C9 (amended): the persisted chunk indices are exactly the indices
of the successful jobs, in increasing order — a subset of `[0, n)` that
equals the contiguous range `[0, n)` precisely when every job succeeded. -/
theorem speech_saved_indices_eq_successes (doc : Document) (t : List Char)
    (chunks : List TTSChunk) (outcome : Nat → Bool)
    (htext : doc.extractedText = some t) (hne : t ≠ [])
    (hguard : ¬(doc.ttsStatus = some StageStatus.processing ∨
      doc.ttsStatus = some StageStatus.ready)) :
    (processDocumentTTS (some doc) 0 chunks outcome).saved.map Prod.fst =
      (List.range chunks.length).filter outcome ∧
    ((∀ i ∈ List.range chunks.length, outcome i = true) →
      (processDocumentTTS (some doc) 0 chunks outcome).saved.map Prod.fst =
        List.range chunks.length) := by
  obtain ⟨hs1, hs2, hs3⟩ := ttsJobLoop_zero outcome chunks
  rw [processDocumentTTS_run doc t chunks outcome htext hne hguard]
  constructor
  · by_cases hpos : 0 < (ttsJobLoop chunks 0 outcome).1
    · rw [if_pos hpos]
      exact hs1
    · rw [if_neg hpos]
      exact hs1
  · intro hall
    have hfull : (List.range chunks.length).filter outcome = List.range chunks.length :=
      List.filter_eq_self.mpr hall
    by_cases hpos : 0 < (ttsJobLoop chunks 0 outcome).1
    · rw [if_pos hpos]
      dsimp only
      rw [hs1, hfull]
    · rw [if_neg hpos]
      dsimp only
      rw [hs1, hfull]

/-- Witness for the amended claim C9: a single chunk whose job succeeds. -/
theorem speech_saved_indices_eq_successes_witness :
    (processDocumentTTS (some docPending) 0 [chunkA] (fun _ => true)).saved.map Prod.fst =
      (List.range [chunkA].length).filter (fun _ => true) ∧
    ((∀ i ∈ List.range [chunkA].length, (fun _ : Nat => true) i = true) →
      (processDocumentTTS (some docPending) 0 [chunkA] (fun _ => true)).saved.map Prod.fst =
        List.range [chunkA].length) :=
  speech_saved_indices_eq_successes docPending ['x'] [chunkA] (fun _ => true) rfl
    (by decide) (by decide)

/-- Claim C10: `updatePlaybackState` modifies only the supplied fields: with
an existing row, supplying only `isPlaying` leaves `currentChunkIndex`
unchanged and vice versa; with no existing row it creates one with defaults
`currentChunkIndex = 0` and `isPlaying = false` for omitted fields. -/
theorem updatePlaybackState_frame (st : PlaybackState) (ci : Nat) (ip : Bool)
    (now : Nat) :
    (updatePlaybackState (some st) none (some ip) now).currentChunkIndex =
      st.currentChunkIndex ∧
    (updatePlaybackState (some st) none (some ip) now).isPlaying = ip ∧
    (updatePlaybackState (some st) (some ci) none now).isPlaying = st.isPlaying ∧
    (updatePlaybackState (some st) (some ci) none now).currentChunkIndex = ci ∧
    updatePlaybackState none none none now =
      { currentChunkIndex := 0, isPlaying := false, updatedAt := now } ∧
    (updatePlaybackState none none (some ip) now).currentChunkIndex = 0 ∧
    (updatePlaybackState none (some ci) none now).isPlaying = false :=
  ⟨rfl, rfl, rfl, rfl, rfl, rfl, rfl⟩

end PdfReaderTTS
